import Mathlib

/-!
Verification development for MiniGit (`src/minigit/cli.py`), a minimal
content-addressable object store with tree and commit encoders.

Modelling conventions:
* A byte string (`bytes` in the source) is `Bytes := List Nat`; text is kept
  at the byte level, since the source converts `str`/`bytes` with `.encode()` /
  `.decode()` at ASCII boundaries.
* The filesystem under `.git/objects` is a flat association list from paths
  (component lists) to file contents.  `_write_object` stores under the
  fan-out path `[sha[:2], sha[2:]]`; `_object_path` also consults the flat
  path `[sha]`.
* The external libraries `hashlib.sha1(...).hexdigest()` and
  `zlib.compress`/`zlib.decompress` are abstract functions `f`, `c`, `d`
  passed as parameters; where a proof needs the zlib round trip
  `d (c x) = x` it is an explicit hypothesis.
* Python `bytes.find` returning `-1` is modelled by `Option Nat`; the source's
  `i = j + 1` after a failed `find` (so `i` becomes `0`) and the slice
  `body[i:-1]` are reproduced in the `none` branches of the tree scan.
-/

namespace MiniGit

/-- Byte strings: each element is a byte value (0..255 in all source uses). -/
abbrev Bytes := List Nat

/-- ASCII bytes of a string literal (`str.encode()` for the ASCII literals
used by the source). -/
def strBytes (s : String) : Bytes := s.toList.map Char.toNat

/-- Decimal rendering of a natural number as ASCII digit bytes, i.e.
`str(n).encode()`.  Structural fuel keeps the definition kernel-computable;
`n + 1` units of fuel always suffice since `n` shrinks 10-fold each step. -/
def natToDecAux : Nat → Nat → Bytes
  | 0, _ => []
  | fuel + 1, n => if n < 10 then [48 + n] else natToDecAux fuel (n / 10) ++ [48 + n % 10]

/-- Model of `str(n).encode()` for a natural number `n`. -/
def natToDec (n : Nat) : Bytes := natToDecAux (n + 1) n

/-! ## The object store (`.git/objects`)

`Store` is the set of files under `OBJ_DIR`, as an association list from a
path (list of path components, each a byte-string file name) to the raw file
content. -/

/-- A path below `.git/objects`, as a list of name components. -/
abbrev ObjPath := List Bytes

/-- The files currently on disk below `.git/objects`. -/
abbrev Store := List (ObjPath × Bytes)

/-- Fan-out location of a digest: directory `sha1[:2]`, file `sha1[2:]`. -/
def fanoutPath (sha : Bytes) : ObjPath := [sha.take 2, sha.drop 2]

/-- Flat legacy location of a digest: a single file named by the full digest. -/
def flatPath (sha : Bytes) : ObjPath := [sha]

/-- Model of `Path.exists()` for a file below `.git/objects`. -/
def pathExists (σ : Store) (p : ObjPath) : Bool := σ.any (fun e => e.1 == p)

/-- Model of `path.read_bytes()`: content stored at `p`, if present. -/
def storeGet (σ : Store) (p : ObjPath) : Option Bytes :=
  (σ.find? (fun e => e.1 == p)).map (·.2)

/-- Model of `_object_path(sha1)`: prefer the fan-out path, fall back to the flat
path, `none` when the object is missing. -/
def objectPath (σ : Store) (sha : Bytes) : Option ObjPath :=
  if pathExists σ (fanoutPath sha) then some (fanoutPath sha)
  else if pathExists σ (flatPath sha) then some (flatPath sha)
  else none

/-- Model of `_read_object(sha1)`: decompressed object bytes, `none` for the
`FileNotFoundError` path. -/
def readObject (d : Bytes → Bytes) (σ : Store) (sha : Bytes) : Option Bytes :=
  match objectPath σ sha with
  | none => none
  | some p => (storeGet σ p).map d

/-- Model of `_write_object(store)`: hash with `f` (SHA-1 hex digest), skip when the
fan-out destination exists, otherwise write the `c`-compressed bytes there.
Returns the updated store and the digest. -/
def writeObject (f c : Bytes → Bytes) (σ : Store) (store : Bytes) : Store × Bytes :=
  let sha := f store
  if pathExists σ (fanoutPath sha) then (σ, sha)
  else (σ ++ [(fanoutPath sha, c store)], sha)

/-- Canonical header-prefixed object representation
`"<kind> <len(payload)>\x00" + payload`; the source builds it literally at
each call site (`b"blob " + str(len(data)).encode() + b"\x00" + data`, and
likewise for `tree`/`commit`). -/
def objectStoreBytes (kind payload : Bytes) : Bytes :=
  kind ++ [32] ++ natToDec payload.length ++ [0] ++ payload

/-- The spec-level `write(kind, payload)`: store the canonical representation
via `_write_object`. -/
def writeKind (f c : Bytes → Bytes) (σ : Store) (kind payload : Bytes) : Store × Bytes :=
  writeObject f c σ (objectStoreBytes kind payload)

/-- Model of `b"blob " + str(len(data)).encode() + b"\x00" + data` as built by
`hash_object_w` and `_write_blob`. -/
def blobStoreBytes (data : Bytes) : Bytes := strBytes "blob " ++ natToDec data.length ++ [0] ++ data

/-- Model of `hash_object_w` on file content `data` (the file read itself is an
external collaborator): store the blob, return updated store and the printed
digest. -/
def hashObjectW (f c : Bytes → Bytes) (σ : Store) (data : Bytes) : Store × Bytes :=
  writeObject f c σ (blobStoreBytes data)

/-! ## cat-file -p -/

/-- Outcome of a CLI command: `ok` writes `stdout` and exits 0; `fatal`
prints a message on stderr and exits with a nonzero status (via `sys.exit(1)`
or an uncaught exception). -/
inductive CmdOut where
  | ok (stdout : Bytes)
  | fatal (msg : Bytes)
deriving DecidableEq

def exitCode : CmdOut → Nat
  | .ok _ => 0
  | .fatal _ => 1

def stdoutBytes : CmdOut → Bytes
  | .ok b => b
  | .fatal _ => []

/-- Model of `raw.split(b"\x00", 1)` when used as `header, body = ...`: split at the
first null byte; `none` models the `ValueError` raised when no null exists. -/
def pySplit1 (raw : Bytes) : Option (Bytes × Bytes) :=
  match List.findIdx? (fun b => b == 0) raw with
  | none => none
  | some j => some (raw.take j, raw.drop (j + 1))

/-- Model of `cat_file_p(sha1)`. -/
def catFileP (d : Bytes → Bytes) (σ : Store) (sha : Bytes) : CmdOut :=
  match readObject d σ sha with
  | none => .fatal (strBytes "fatal: object not found")
  | some raw =>
    match pySplit1 raw with
    | none => .fatal (strBytes "ValueError")
    | some (header, body) =>
      if (strBytes "blob ").isPrefixOf header then .ok body
      else .fatal (strBytes "fatal: not a blob object")

/-! ## Hex encoding (`bytes.hex()` / `bytes.fromhex`) -/

/-- Lowercase hex digit for a value `v < 16` (`'0' + v` or `'a' + (v - 10)`). -/
def hexChar (v : Nat) : Nat := if v < 10 then 48 + v else 87 + v

/-- Value of a hex digit byte (`'0'..'9'`, `'A'..'F'`, `'a'..'f'`), as parsed
by `bytes.fromhex`. -/
def hexVal (c : Nat) : Nat := if c ≤ 57 then c - 48 else if c ≤ 70 then c - 55 else c - 87

/-- Is `c` a lowercase hex digit byte (the alphabet `bytes.hex()` emits)? -/
def isLowerHex (c : Nat) : Bool := (48 ≤ c && c ≤ 57) || (97 ≤ c && c ≤ 102)

/-- Model of `bytes.hex()`: two lowercase hex digit bytes per byte. -/
def toHexList (bs : Bytes) : Bytes := bs.flatMap (fun b => [hexChar (b / 16), hexChar (b % 16)])

/-- Model of `bytes.fromhex(s)`: consume hex digits two at a time (the source only
applies it to 40-digit SHA-1 digests; odd trailing digits, which make the
Python raise `ValueError`, are dropped here and excluded by hypotheses). -/
def fromHexList : Bytes → Bytes
  | c1 :: c2 :: rest => (16 * hexVal c1 + hexVal c2) :: fromHexList rest
  | _ => []

/-! ## Tree codec

A scanned tree entry: `mode` and `name` text (as bytes) and the digest in
its 40-hex-digit form.  The source keeps the same three values as the tuple
`(name, mode, sha)`. -/

structure TreeEntry where
  mode : Bytes
  name : Bytes
  sha : Bytes
deriving DecidableEq

/-- Model of `mode.encode() + b" " + name.encode() + b"\x00" + bytes.fromhex(sha)`:
one entry's contribution to the tree body in `_write_tree_for_dir`. -/
def encodeTreeEntry (e : TreeEntry) : Bytes :=
  e.mode ++ [32] ++ e.name ++ [0] ++ fromHexList e.sha

/-- The tree body: entry encodings joined in order (`b"".join(...)`). -/
def encodeTreeBody (es : List TreeEntry) : Bytes := es.flatMap encodeTreeEntry

/-- Model of `b"tree " + str(len(body)).encode() + b"\x00" + body`. -/
def treeStoreBytes (body : Bytes) : Bytes := strBytes "tree " ++ natToDec body.length ++ [0] ++ body

/-- Model of `body.find(bytes([c]), i)`: index of the first occurrence of byte `c` at
position `≥ i`, `none` for Python's `-1`. -/
def findFrom (l : Bytes) (c : Nat) (i : Nat) : Option Nat :=
  (List.findIdx? (fun b => b == c) (l.drop i)).map (· + i)

/-- Python slice `l[i:j]` for `0 ≤ i, 0 ≤ j`. -/
def pySlice (l : Bytes) (i j : Nat) : Bytes := (l.drop i).take (j - i)

/-- The scanning loop of `ls_tree`, one fuel unit per `while` check.  Each
branch mirrors the source:

* `j = body.find(b" ", i)`; on failure `j = -1`, so `mode = body[i:-1]`
  (i.e. `body[i:len-1]`) and the subsequent `i = j + 1` resets `i` to `0`;
* likewise for the null search;
* `sha_hex = body[i:i+20].hex()` takes up to 20 bytes positionally.

`none` means the fuel ran out; `body.length + 1` units suffice for every
terminating run of the Python loop (a longer run revisits a scan index and
hence never terminates). -/
def lsLoop (body : Bytes) : Nat → Nat → List TreeEntry → Option (List TreeEntry)
  | 0, _, _ => none
  | fuel + 1, i, acc =>
    if i < body.length then
      let j := findFrom body 32 i
      let mode := match j with
        | some j => pySlice body i j
        | none => pySlice body i (body.length - 1)
      let i1 := match j with
        | some j => j + 1
        | none => 0
      let k := findFrom body 0 i1
      let name := match k with
        | some k => pySlice body i1 k
        | none => pySlice body i1 (body.length - 1)
      let i2 := match k with
        | some k => k + 1
        | none => 0
      let sha := toHexList (pySlice body i2 (i2 + 20))
      lsLoop body fuel (i2 + 20) (⟨mode, name, sha⟩ :: acc)
    else
      some acc.reverse

/-- The tree-body scan of `ls_tree` as a function of the body: the scanned
entries in order, or `none` when the Python loop does not terminate. -/
def decodeTree (body : Bytes) : Option (List TreeEntry) :=
  lsLoop body (body.length + 1) 0 []

/-- Well-formedness of an entry for the tree codec: the mode text contains no
space, the name no null byte, and the digest is 40 lowercase hex digits —
exactly what `_write_tree_for_dir` produces. -/
def EntryOk (e : TreeEntry) : Prop :=
  (∀ a ∈ e.mode, a ≠ 32) ∧ (∀ a ∈ e.name, a ≠ 0) ∧
    e.sha.length = 40 ∧ ∀ c ∈ e.sha, isLowerHex c = true

instance : DecidablePred EntryOk := fun e =>
  inferInstanceAs (Decidable ((∀ a ∈ e.mode, a ≠ 32) ∧ (∀ a ∈ e.name, a ≠ 0) ∧
    e.sha.length = 40 ∧ ∀ c ∈ e.sha, isLowerHex c = true))

/-! ## Commit builder (`commit_tree`) -/

def AUTHOR : Bytes := strBytes "Mann <mann@example.com>"

def treeLine (t : Bytes) : Bytes := strBytes "tree " ++ t

def parentLine (p : Bytes) : Bytes := strBytes "parent " ++ p

def authorLine (ts : Nat) : Bytes :=
  strBytes "author " ++ AUTHOR ++ [32] ++ natToDec ts ++ [32] ++ strBytes "+0000"

def committerLine (ts : Nat) : Bytes :=
  strBytes "committer " ++ AUTHOR ++ [32] ++ natToDec ts ++ [32] ++ strBytes "+0000"

/-- Python truthiness of `parent_sha : str | None`: `None` and `""` are falsy. -/
def pyTruthy : Option Bytes → Bool
  | none => false
  | some s => !s.isEmpty

/-- The `lines` list built by `commit_tree` (timestamp `ts` stands for the
captured `int(time.time())`; the timezone is the fixed `"+0000"`). -/
def commitLines (t : Bytes) (parent : Option Bytes) (msg : Bytes) (ts : Nat) : List Bytes :=
  ([treeLine t] ++ (if pyTruthy parent then [parentLine (parent.getD [])] else [])) ++
    [authorLine ts, committerLine ts, [], msg]

/-- Model of `"\n".join(lines) + "\n"`, at the byte level. -/
def commitContent (t : Bytes) (parent : Option Bytes) (msg : Bytes) (ts : Nat) : Bytes :=
  List.intercalate [10] (commitLines t parent msg ts) ++ [10]

/-- Model of `b"commit " + str(len(content)).encode() + b"\x00" + content`. -/
def commitStoreBytes (t : Bytes) (parent : Option Bytes) (msg : Bytes) (ts : Nat) : Bytes :=
  strBytes "commit " ++ natToDec (commitContent t parent msg ts).length ++ [0] ++
    commitContent t parent msg ts

/-- Model of `commit_tree`: build the commit text and store it; returns the updated
store and the printed digest. -/
def commitTree (f c : Bytes → Bytes) (σ : Store) (t : Bytes) (parent : Option Bytes)
    (msg : Bytes) (ts : Nat) : Store × Bytes :=
  writeObject f c σ (commitStoreBytes t parent msg ts)

/-- Header section of the commit body: the lines before the blank separator. -/
def headerLines (lines : List Bytes) : List Bytes := lines.takeWhile (fun l => !l.isEmpty)

/-- Does the header section contain a `parent ` line? -/
def hasParentLine (lines : List Bytes) : Bool :=
  (headerLines lines).any (fun l => (strBytes "parent ").isPrefixOf l)

/-! ## write-tree: directory snapshots

`sorted(dir_path.iterdir(), key=lambda p: p.name)` compares names as Python
strings, i.e. lexicographically by code point — byte-wise for the byte-level
names used here. -/

/-- Lexicographic `≤` on byte strings (Python string comparison of names). -/
def lexLe : Bytes → Bytes → Bool
  | [], _ => true
  | _ :: _, [] => false
  | a :: as, b :: bs => if a < b then true else if b < a then false else lexLe as bs

/-- Order on scanned entries used to model `sorted(..., key=lambda p: p.name)`. -/
def entryLe (a b : TreeEntry) : Prop := lexLe a.name b.name = true

instance : DecidableRel entryLe :=
  fun a b => inferInstanceAs (Decidable (lexLe a.name b.name = true))

instance : IsTotal TreeEntry entryLe := ⟨fun a b => by
  have h : ∀ x y : Bytes, lexLe x y = true ∨ lexLe y x = true := by
    intro x
    induction x with
    | nil => intro y; left; rfl
    | cons a as ih =>
      intro y
      cases y with
      | nil => right; rfl
      | cons b bs =>
        rcases Nat.lt_trichotomy a b with hab | hab | hab
        · left
          simp [lexLe, hab]
        · subst hab
          rcases ih bs with hy | hy <;> [left; right] <;> simp [lexLe, hy]
        · right
          simp [lexLe, hab]
  exact h a.name b.name⟩

instance : IsTrans TreeEntry entryLe := ⟨fun a b c => by
  have h : ∀ x y z : Bytes, lexLe x y = true → lexLe y z = true → lexLe x z = true := by
    intro x
    induction x with
    | nil => intro y z _ _; rfl
    | cons a as ih =>
      intro y z h1 h2
      cases y with
      | nil => simp [lexLe] at h1
      | cons b bs =>
        cases z with
        | nil => simp [lexLe] at h2
        | cons cz cs =>
          simp only [lexLe] at h1 h2 ⊢
          split_ifs at h1 h2 ⊢ <;> try omega
          all_goals first
            | rfl
            | (exact ih bs cs h1 h2)
  exact h a.name b.name c.name⟩

/-- The reserved repository-metadata directory name. -/
def GITNAME : Bytes := strBytes ".git"

/-- A filesystem node: a file (content plus whether any execute bit is set)
or a directory with named children (in arbitrary `iterdir` order). -/
inductive FSNode where
  | file (data : Bytes) (exec : Bool)
  | dir (children : List (Bytes × FSNode))

/-- Model of `_file_mode(path)`: `"40000"` for a directory, `"100755"` for an
executable file, `"100644"` otherwise. -/
def fileModeOf : FSNode → Bytes
  | .dir _ => strBytes "40000"
  | .file _ exec => if exec then strBytes "100755" else strBytes "100644"

/-- Sort the entry list by name and drop the `.git` entry.  The source sorts
the children and skips `.git` before computing each child's digest; since the
digest of a child is a pure function of its content, computing digests first
and then sorting/filtering the (name-keyed, stable) entry list yields the
same list. -/
def sortFilterEntries (es : List TreeEntry) : List TreeEntry :=
  (List.insertionSort entryLe es).filter (fun e => !(e.name == GITNAME))

mutual

/-- The header+body `store` bytes `_write_tree_for_dir` / `_write_blob` would
persist for this node (digest = SHA-1 of these bytes). -/
def nodeStoreBytes (f : Bytes → Bytes) : FSNode → Bytes
  | .file data _ => blobStoreBytes data
  | .dir cs => treeStoreBytes (encodeTreeBody (sortFilterEntries (childEntriesRaw f cs)))

/-- One `(name, mode, sha)` entry per child, in `iterdir` order. -/
def childEntriesRaw (f : Bytes → Bytes) : List (Bytes × FSNode) → List TreeEntry
  | [] => []
  | c :: rest =>
    ⟨fileModeOf c.2, c.1, toHexList (f (nodeStoreBytes f c.2))⟩ :: childEntriesRaw f rest

end

/-- The entry list `_write_tree_for_dir` encodes for a directory with
children `cs`: children sorted by name, `.git` skipped, each with its mode
and the 40-hex digest of its blob or subtree. -/
def dirEntries (f : Bytes → Bytes) (cs : List (Bytes × FSNode)) : List TreeEntry :=
  sortFilterEntries (childEntriesRaw f cs)

/-! ## Concrete inputs used by counterexamples and witnesses -/

/-- A stand-in SHA-1 hex digest function for closed statements (the real
SHA-1 is an external library; no claim depends on its values). -/
def hashConstA : Bytes → Bytes := fun _ => List.replicate 40 97

/-- A store holding one object at the flat legacy location for the digest
`hashConstA` assigns to everything. -/
def flatOnlyStore : Store := [(flatPath (List.replicate 40 97), [0])]

/-- A tree body with no space and no null byte and more than 20 bytes: on it
the `ls_tree` scan revisits index 20 forever. -/
def noDelimBody : Bytes := List.replicate 21 65

end MiniGit

/-! # Theorems -/

namespace MiniGit

theorem blobStoreBytes_eq (data : Bytes) :
    blobStoreBytes data = objectStoreBytes (strBytes "blob") data := by
  simp [blobStoreBytes, objectStoreBytes, strBytes]

theorem natToDecAux_digits : ∀ fuel n, ∀ d ∈ natToDecAux fuel n, 48 ≤ d ∧ d ≤ 57 := by
  intro fuel
  induction fuel with
  | zero => intro n d hd; simp [natToDecAux] at hd
  | succ fuel ih =>
    intro n d hd
    by_cases h : n < 10
    · simp [natToDecAux, h] at hd
      omega
    · simp [natToDecAux, h] at hd
      rcases hd with hd | hd
      · exact ih _ d hd
      · have : n % 10 < 10 := Nat.mod_lt _ (by norm_num)
        omega

theorem natToDec_digits (n : Nat) : ∀ d ∈ natToDec n, 48 ≤ d ∧ d ≤ 57 :=
  natToDecAux_digits (n + 1) n

theorem natToDec_no_zero (n : Nat) : ∀ d ∈ natToDec n, d ≠ 0 := by
  intro d hd
  have := natToDec_digits n d hd
  omega

theorem natToDec_no_space (n : Nat) : ∀ d ∈ natToDec n, d ≠ 32 := by
  intro d hd
  have := natToDec_digits n d hd
  omega

theorem length_fromHexList : (s : Bytes) → (fromHexList s).length = s.length / 2
  | [] => rfl
  | [_] => by simp [fromHexList]
  | _ :: _ :: rest => by
    simp only [fromHexList, List.length_cons, length_fromHexList rest]
    omega

theorem hexVal_lt_16 (c : Nat) (h : isLowerHex c = true) : hexVal c < 16 := by
  simp [isLowerHex] at h
  rcases h with h | h <;> (unfold hexVal; split_ifs <;> omega)

theorem hexChar_hexVal (c : Nat) (h : isLowerHex c = true) : hexChar (hexVal c) = c := by
  simp [isLowerHex] at h
  unfold hexVal hexChar
  rcases h with h | h <;> split_ifs <;> omega

theorem toHexList_fromHexList : (s : Bytes) → s.length % 2 = 0 →
    (∀ c ∈ s, isLowerHex c = true) → toHexList (fromHexList s) = s
  | [], _, _ => rfl
  | [_], hev, _ => by simp at hev
  | c1 :: c2 :: rest, hev, hhex => by
    have h1 : isLowerHex c1 = true := hhex c1 (by simp)
    have h2 : isLowerHex c2 = true := hhex c2 (by simp)
    have hv2 : hexVal c2 < 16 := hexVal_lt_16 c2 h2
    have hdiv : (16 * hexVal c1 + hexVal c2) / 16 = hexVal c1 := by omega
    have hmod : (16 * hexVal c1 + hexVal c2) % 16 = hexVal c2 := by omega
    have hrest : toHexList (fromHexList rest) = rest := by
      refine toHexList_fromHexList rest (by simp at hev ⊢; omega) ?_
      intro c hc
      exact hhex c (by simp [hc])
    simp only [fromHexList, toHexList, List.flatMap_cons] at hrest ⊢
    rw [hdiv, hmod, hexChar_hexVal c1 h1, hexChar_hexVal c2 h2, hrest]
    rfl

/-! ### Locating delimiters -/

theorem findIdx?_first (p : Nat → Bool) :
    ∀ (pre : Bytes) (t : Nat) (rest : Bytes), (∀ a ∈ pre, p a = false) → p t = true →
    ∀ i, List.findIdx? p (pre ++ t :: rest) i = some (pre.length + i)
  | [], t, rest, _, ht, i => by simp [List.findIdx?_cons, ht]
  | a :: pre, t, rest, hpre, ht, i => by
    have ha : p a = false := hpre a (by simp)
    have ih := findIdx?_first p pre t rest (fun x hx => hpre x (by simp [hx])) ht (i + 1)
    simp only [List.cons_append, List.findIdx?_cons, ha, Bool.false_eq_true, if_false, ih,
      List.length_cons]
    congr 1
    omega

theorem findFrom_at (c : Nat) (P pre rest : Bytes) (i : Nat) (hi : i = P.length)
    (h : ∀ a ∈ pre, a ≠ c) :
    findFrom (P ++ (pre ++ c :: rest)) c i = some (pre.length + i) := by
  subst hi
  have hpre : ∀ a ∈ pre, (a == c) = false := by
    intro a ha
    simpa using h a ha
  rw [findFrom, List.drop_left,
    findIdx?_first (fun b => b == c) pre c rest hpre (by simp) 0]
  simp

theorem pySlice_at (P pre rest : Bytes) (i j : Nat) (hi : i = P.length)
    (hj : j = pre.length + i) : pySlice (P ++ (pre ++ rest)) i j = pre := by
  subst hi hj
  rw [pySlice, List.drop_left, Nat.add_sub_cancel, List.take_left]

theorem pySplit1_at (pre rest : Bytes) (h : ∀ a ∈ pre, a ≠ 0) :
    pySplit1 (pre ++ 0 :: rest) = some (pre, rest) := by
  have hpre : ∀ a ∈ pre, (a == (0 : Nat)) = false := by
    intro a ha
    simpa using h a ha
  rw [pySplit1]
  rw [findIdx?_first (fun b => b == 0) pre 0 rest hpre (by simp) 0]
  have hdrop : (pre ++ 0 :: rest).drop (pre.length + 0 + 1) = rest := by
    have : pre ++ 0 :: rest = (pre ++ [0]) ++ rest := by simp
    rw [this, show pre.length + 0 + 1 = (pre ++ [0]).length by simp]
    exact List.drop_left _ _
  simp [hdrop, List.take_left]

theorem isPrefixOf_append_self : ∀ (l r : Bytes), l.isPrefixOf (l ++ r) = true
  | [], _ => by simp [List.isPrefixOf]
  | a :: l, r => by simp [List.isPrefixOf, isPrefixOf_append_self l r]

/-! ### The tree scan on well-formed bodies -/

theorem lsLoop_encode_step (m n s P tail : Bytes) (fuel : Nat) (acc : List TreeEntry)
    (hm : ∀ a ∈ m, a ≠ 32) (hn : ∀ a ∈ n, a ≠ 0) (hlen : s.length = 40)
    (hhex : ∀ c ∈ s, isLowerHex c = true) :
    lsLoop (P ++ (encodeTreeEntry ⟨m, n, s⟩ ++ tail)) (fuel + 1) P.length acc =
      lsLoop (P ++ (encodeTreeEntry ⟨m, n, s⟩ ++ tail)) fuel
        (P.length + (encodeTreeEntry ⟨m, n, s⟩).length) (⟨m, n, s⟩ :: acc) := by
  have hS : (fromHexList s).length = 20 := by rw [length_fromHexList, hlen]
  have hEl : (encodeTreeEntry ⟨m, n, s⟩).length = m.length + n.length + 22 := by
    simp [encodeTreeEntry, hS]
    omega
  have hb : P ++ (encodeTreeEntry ⟨m, n, s⟩ ++ tail)
      = P ++ (m ++ (32 :: (n ++ (0 :: (fromHexList s ++ tail))))) := by
    simp [encodeTreeEntry]
  rw [hEl, hb]
  have hlt : P.length < (P ++ (m ++ (32 :: (n ++ (0 :: (fromHexList s ++ tail)))))).length := by
    simp only [List.length_append, List.length_cons]
    omega
  have h1 : findFrom (P ++ (m ++ (32 :: (n ++ (0 :: (fromHexList s ++ tail)))))) 32 P.length
      = some (m.length + P.length) :=
    findFrom_at 32 P m _ P.length rfl hm
  have h2 : findFrom (P ++ (m ++ (32 :: (n ++ (0 :: (fromHexList s ++ tail)))))) 0
      (m.length + P.length + 1) = some (n.length + (m.length + P.length + 1)) := by
    have hshape : P ++ (m ++ (32 :: (n ++ (0 :: (fromHexList s ++ tail)))))
        = ((P ++ m) ++ [32]) ++ (n ++ (0 :: (fromHexList s ++ tail))) := by simp
    rw [hshape]
    refine findFrom_at 0 ((P ++ m) ++ [32]) n _ _ ?_ hn
    simp only [List.length_append, List.length_cons, List.length_nil]
    omega
  have h3 : pySlice (P ++ (m ++ (32 :: (n ++ (0 :: (fromHexList s ++ tail)))))) P.length
      (m.length + P.length) = m :=
    pySlice_at P m _ _ _ rfl rfl
  have h4 : pySlice (P ++ (m ++ (32 :: (n ++ (0 :: (fromHexList s ++ tail))))))
      (m.length + P.length + 1) (n.length + (m.length + P.length + 1)) = n := by
    have hshape : P ++ (m ++ (32 :: (n ++ (0 :: (fromHexList s ++ tail)))))
        = ((P ++ m) ++ [32]) ++ (n ++ (0 :: (fromHexList s ++ tail))) := by simp
    rw [hshape]
    refine pySlice_at ((P ++ m) ++ [32]) n _ _ _ ?_ rfl
    simp only [List.length_append, List.length_cons, List.length_nil]
    omega
  have h5 : pySlice (P ++ (m ++ (32 :: (n ++ (0 :: (fromHexList s ++ tail))))))
      (n.length + (m.length + P.length + 1) + 1)
      (n.length + (m.length + P.length + 1) + 1 + 20) = fromHexList s := by
    have hshape : P ++ (m ++ (32 :: (n ++ (0 :: (fromHexList s ++ tail)))))
        = ((((P ++ m) ++ [32]) ++ n) ++ [0]) ++ (fromHexList s ++ tail) := by simp
    rw [hshape]
    refine pySlice_at ((((P ++ m) ++ [32]) ++ n) ++ [0]) (fromHexList s) tail _ _ ?_ ?_
    · simp only [List.length_append, List.length_cons, List.length_nil]
      omega
    · rw [hS]
      omega
  have h6 : toHexList (fromHexList s) = s := toHexList_fromHexList s (by rw [hlen]) hhex
  simp only [lsLoop, if_pos hlt, h1, h3]
  simp only [h2, h4]
  simp only [h5, h6]
  have hidx : n.length + (m.length + P.length + 1) + 1 + 20
      = P.length + (m.length + n.length + 22) := by omega
  rw [hidx]

theorem lsLoop_encodeBody :
    ∀ (es : List TreeEntry), (∀ e ∈ es, EntryOk e) →
    ∀ (P : Bytes) (acc : List TreeEntry) (fuel : Nat), es.length + 1 ≤ fuel →
    lsLoop (P ++ encodeTreeBody es) fuel P.length acc = some (acc.reverse ++ es) := by
  intro es
  induction es with
  | nil =>
    intro _ P acc fuel hfuel
    obtain ⟨g, rfl⟩ : ∃ g, fuel = g + 1 := ⟨fuel - 1, by omega⟩
    simp [encodeTreeBody, lsLoop]
  | cons e tl ih =>
    intro hok P acc fuel hfuel
    obtain ⟨g, rfl⟩ : ∃ g, fuel = g + 1 := ⟨fuel - 1, by omega⟩
    obtain ⟨m, n, s⟩ := e
    obtain ⟨hm, hn, hlen, hhex⟩ := hok ⟨m, n, s⟩ (by simp)
    have hbody : encodeTreeBody (⟨m, n, s⟩ :: tl) = encodeTreeEntry ⟨m, n, s⟩ ++ encodeTreeBody tl := by
      simp [encodeTreeBody]
    rw [hbody]
    rw [lsLoop_encode_step m n s P (encodeTreeBody tl) g acc hm hn hlen hhex]
    have hlen2 : P.length + (encodeTreeEntry ⟨m, n, s⟩).length
        = (P ++ encodeTreeEntry ⟨m, n, s⟩).length := by
      simp
    rw [hlen2, ← List.append_assoc]
    rw [ih (fun x hx => hok x (by simp [hx])) (P ++ encodeTreeEntry ⟨m, n, s⟩)
      (⟨m, n, s⟩ :: acc) g (by simp at hfuel ⊢; omega)]
    simp

theorem length_encodeTreeBody_ge : ∀ es : List TreeEntry, es.length ≤ (encodeTreeBody es).length := by
  intro es
  induction es with
  | nil => simp [encodeTreeBody]
  | cons e tl ih =>
    simp only [encodeTreeBody, List.flatMap_cons, List.length_append, List.length_cons]
    have : 1 ≤ (encodeTreeEntry e).length := by
      simp only [encodeTreeEntry, List.length_append, List.length_cons]
      omega
    simp only [encodeTreeBody] at ih
    omega

/-! ### Store basics -/

theorem pathExists_append_self (σ : Store) (p : ObjPath) (x : Bytes) :
    pathExists (σ ++ [(p, x)]) p = true := by
  simp [pathExists]

theorem fanoutPath_ne_flatPath (s₁ s₂ : Bytes) : fanoutPath s₁ ≠ flatPath s₂ := by
  intro h
  simp [fanoutPath, flatPath] at h

theorem hashObjectW_empty (f c : Bytes → Bytes) (b : Bytes) :
    hashObjectW f c [] b
      = ([(fanoutPath (f (blobStoreBytes b)), c (blobStoreBytes b))], f (blobStoreBytes b)) := by
  simp [hashObjectW, writeObject, pathExists]

theorem catFileP_fresh_blob (f c d : Bytes → Bytes) (hzlib : ∀ x, d (c x) = x) (b : Bytes) :
    catFileP d (hashObjectW f c [] b).1 (hashObjectW f c [] b).2 = .ok b := by
  rw [hashObjectW_empty]
  have hPE : pathExists [(fanoutPath (f (blobStoreBytes b)), c (blobStoreBytes b))]
      (fanoutPath (f (blobStoreBytes b))) = true := by
    simp [pathExists]
  have hOP : objectPath [(fanoutPath (f (blobStoreBytes b)), c (blobStoreBytes b))]
      (f (blobStoreBytes b)) = some (fanoutPath (f (blobStoreBytes b))) := by
    simp [objectPath, hPE]
  have hSG : storeGet [(fanoutPath (f (blobStoreBytes b)), c (blobStoreBytes b))]
      (fanoutPath (f (blobStoreBytes b))) = some (c (blobStoreBytes b)) := by
    simp [storeGet]
  have hRO : readObject d [(fanoutPath (f (blobStoreBytes b)), c (blobStoreBytes b))]
      (f (blobStoreBytes b)) = some (d (c (blobStoreBytes b))) := by
    simp [readObject, hOP, hSG]
  have hblob0 : ∀ a ∈ strBytes "blob ", a ≠ 0 := by decide
  have hsplit : pySplit1 (blobStoreBytes b) = some (strBytes "blob " ++ natToDec b.length, b) := by
    have hshape : blobStoreBytes b = (strBytes "blob " ++ natToDec b.length) ++ 0 :: b := by
      simp [blobStoreBytes]
    rw [hshape]
    refine pySplit1_at _ b ?_
    intro a ha
    rcases List.mem_append.mp ha with ha | ha
    · exact hblob0 a ha
    · exact natToDec_no_zero b.length a ha
  have hpre : (strBytes "blob ").isPrefixOf (strBytes "blob " ++ natToDec b.length) = true :=
    isPrefixOf_append_self _ _
  simp [catFileP, hRO, hzlib, hsplit, hpre]

/-! ### Commit body shape -/

theorem commitLines_none (t msg : Bytes) (ts : Nat) :
    commitLines t none msg ts = [treeLine t, authorLine ts, committerLine ts, [], msg] := by
  simp [commitLines, pyTruthy]

theorem commitLines_some (t p msg : Bytes) (ts : Nat) (hp : p ≠ []) :
    commitLines t (some p) msg ts
      = [treeLine t, parentLine p, authorLine ts, committerLine ts, [], msg] := by
  cases p with
  | nil => exact absurd rfl hp
  | cons a r => simp [commitLines, pyTruthy]

theorem commitLines_some_empty (t msg : Bytes) (ts : Nat) :
    commitLines t (some []) msg ts = commitLines t none msg ts := by
  simp [commitLines, pyTruthy]

theorem notEmpty_treeLine (t : Bytes) : (treeLine t).isEmpty = false := rfl

theorem notEmpty_parentLine (p : Bytes) : (parentLine p).isEmpty = false := rfl

theorem notEmpty_authorLine (ts : Nat) : (authorLine ts).isEmpty = false := rfl

theorem notEmpty_committerLine (ts : Nat) : (committerLine ts).isEmpty = false := rfl

theorem noParent_treeLine (t : Bytes) : (strBytes "parent ").isPrefixOf (treeLine t) = false := rfl

theorem noParent_authorLine (ts : Nat) :
    (strBytes "parent ").isPrefixOf (authorLine ts) = false := rfl

theorem noParent_committerLine (ts : Nat) :
    (strBytes "parent ").isPrefixOf (committerLine ts) = false := rfl

theorem parent_parentLine (p : Bytes) :
    (strBytes "parent ").isPrefixOf (parentLine p) = true :=
  isPrefixOf_append_self _ p

theorem hasParentLine_none (t msg : Bytes) (ts : Nat) :
    hasParentLine [treeLine t, authorLine ts, committerLine ts, [], msg] = false := by
  simp [hasParentLine, headerLines, List.takeWhile_cons, notEmpty_treeLine, notEmpty_authorLine,
    notEmpty_committerLine, noParent_treeLine, noParent_authorLine, noParent_committerLine]

theorem hasParentLine_some (t p msg : Bytes) (ts : Nat) :
    hasParentLine [treeLine t, parentLine p, authorLine ts, committerLine ts, [], msg] = true := by
  simp [hasParentLine, headerLines, List.takeWhile_cons, notEmpty_treeLine, notEmpty_parentLine,
    notEmpty_authorLine, notEmpty_committerLine, parent_parentLine]

/-! ### Directory entry lists -/

theorem writeObject_sha (f c : Bytes → Bytes) (σ : Store) (s : Bytes) :
    (writeObject f c σ s).2 = f s := by
  simp only [writeObject]
  split <;> rfl

theorem childEntriesRaw_names (f : Bytes → Bytes) :
    ∀ cs : List (Bytes × FSNode), (childEntriesRaw f cs).map TreeEntry.name = cs.map Prod.fst
  | [] => rfl
  | c :: rest => by
    simp only [childEntriesRaw, List.map_cons, childEntriesRaw_names f rest]

theorem map_name_filter_git (l : List TreeEntry) :
    (l.filter (fun e => !(e.name == GITNAME))).map TreeEntry.name
      = (l.map TreeEntry.name).filter (fun nm => !(nm == GITNAME)) := by
  induction l with
  | nil => rfl
  | cons e tl ih =>
    simp only [List.filter_cons, List.map_cons]
    cases hb : !(e.name == GITNAME) with
    | false => simp [hb, ih]
    | true => simp [hb, ih]

/-! ### The `ls_tree` scan on the no-delimiter body -/

theorem lsLoop_noDelim_stuck : ∀ fuel acc, lsLoop noDelimBody fuel 20 acc = none := by
  intro fuel
  induction fuel with
  | zero => intro acc; rfl
  | succ g ih =>
    intro acc
    have hstep : lsLoop noDelimBody (g + 1) 20 acc
        = lsLoop noDelimBody g 20
          (⟨[], List.replicate 20 65, toHexList (List.replicate 20 65)⟩ :: acc) := rfl
    rw [hstep]
    exact ih _

theorem lsLoop_noDelim_none : ∀ fuel acc, lsLoop noDelimBody fuel 0 acc = none := by
  intro fuel acc
  cases fuel with
  | zero => rfl
  | succ g =>
    have hstep : lsLoop noDelimBody (g + 1) 0 acc
        = lsLoop noDelimBody g 20
          (⟨List.replicate 20 65, List.replicate 20 65,
            toHexList (List.replicate 20 65)⟩ :: acc) := rfl
    rw [hstep]
    exact lsLoop_noDelim_stuck g _

/-! ## Claim theorems -/

/-- Claim C1, counterexample: with an object for the digest present only at
the flat legacy location, `_write_object` does not skip the write (it checks
only the fan-out destination), so a second copy appears at the fan-out
location and two objects are on disk — against the claim that the write is
skipped whenever either location exists. -/
theorem write_flat_not_skipped_counterexample :
    pathExists flatOnlyStore
      (flatPath (hashConstA (objectStoreBytes (strBytes "blob") []))) = true ∧
    pathExists flatOnlyStore
      (fanoutPath (hashConstA (objectStoreBytes (strBytes "blob") []))) = false ∧
    (writeKind hashConstA id flatOnlyStore (strBytes "blob") []).1 ≠ flatOnlyStore ∧
    ((writeKind hashConstA id flatOnlyStore (strBytes "blob") []).1).length = 2 := by
  decide

/-- Claim C1, amended: `write(kind, payload)` skips the on-disk write exactly
when an object already exists at the fan-out location — the flat legacy
location is consulted only by `read`, never by `write`.  Writing the same
`(kind, payload)` twice adds no second object: the second write is always a
no-op, and from an empty store exactly one object results. -/
theorem write_dedup_fanout_only (f c : Bytes → Bytes) (σ : Store) (kind payload : Bytes) :
    (pathExists σ (fanoutPath (f (objectStoreBytes kind payload))) = true →
      (writeKind f c σ kind payload).1 = σ) ∧
    (pathExists σ (fanoutPath (f (objectStoreBytes kind payload))) = false →
      (writeKind f c σ kind payload).1
        = σ ++ [(fanoutPath (f (objectStoreBytes kind payload)),
                 c (objectStoreBytes kind payload))]) ∧
    (writeKind f c (writeKind f c σ kind payload).1 kind payload).1
      = (writeKind f c σ kind payload).1 ∧
    ((writeKind f c (writeKind f c [] kind payload).1 kind payload).1).length = 1 := by
  refine ⟨?_, ?_, ?_, ?_⟩
  · intro h
    simp [writeKind, writeObject, h]
  · intro h
    simp [writeKind, writeObject, h]
  · cases hx : pathExists σ (fanoutPath (f (objectStoreBytes kind payload))) with
    | true => simp [writeKind, writeObject, hx]
    | false => simp [writeKind, writeObject, hx, pathExists_append_self]
  · simp [writeKind, writeObject, pathExists, pathExists_append_self]

theorem write_dedup_fanout_only_witness :
    (writeKind hashConstA id flatOnlyStore (strBytes "blob") []).1
      = flatOnlyStore ++ [(fanoutPath (hashConstA (objectStoreBytes (strBytes "blob") [])),
                           id (objectStoreBytes (strBytes "blob") []))] :=
  (write_dedup_fanout_only hashConstA id flatOnlyStore (strBytes "blob") []).2.1 (by decide)

/-- Claim C2, counterexample: on a tree body where only 5 bytes remain where
a 20-byte digest is expected, the `ls_tree` scan does not fail at all
(there is no `MalformedTree` anywhere in the code): it completes and returns
an entry with a truncated 10-hex-digit digest. -/
theorem decode_short_digest_counterexample :
    decodeTree (strBytes "100644 a" ++ 0 :: [1, 2, 3, 4, 5])
      = some [⟨strBytes "100644", strBytes "a", strBytes "0102030405"⟩] ∧
    (strBytes "0102030405").length ≠ 40 := by
  decide

/-- Claim C2, amended: the `ls_tree` scan reads entries left to right and on
well-formed bodies repeats until the body is exhausted; it never fails with
`MalformedTree` — when a delimiter is missing, `find` returns `-1` and the
scan index is reset instead of any failure being raised (second conjunct:
a 2-byte body with no space and no null still decodes, to one garbage
entry), and fewer than 20 remaining bytes yield a truncated digest without
error (third conjunct). -/
theorem decode_scan_no_failure :
    (∀ es : List TreeEntry, (∀ e ∈ es, EntryOk e) →
      decodeTree (encodeTreeBody es) = some es) ∧
    decodeTree [65, 66] = some [⟨[65], [65], strBytes "4142"⟩] ∧
    decodeTree (strBytes "100644 b" ++ 0 :: [9, 8, 7, 6, 5])
      = some [⟨strBytes "100644", strBytes "b", strBytes "0908070605"⟩] := by
  refine ⟨?_, by decide, by decide⟩
  intro es hok
  have h := lsLoop_encodeBody es hok [] [] ((encodeTreeBody es).length + 1)
    (by have := length_encodeTreeBody_ge es; omega)
  simpa [decodeTree] using h

theorem decode_scan_no_failure_witness :
    decodeTree (encodeTreeBody
        [⟨strBytes "100644", strBytes "w.txt", toHexList (List.replicate 20 205)⟩])
      = some [⟨strBytes "100644", strBytes "w.txt", toHexList (List.replicate 20 205)⟩] :=
  decode_scan_no_failure.1
    [⟨strBytes "100644", strBytes "w.txt", toHexList (List.replicate 20 205)⟩] (by decide)

/-- Claim C3 (confirmed): for every byte sequence `b`, including the empty
one, `cat-file -p` on the digest returned by `hash-object -w` over a store
freshly holding that write prints exactly `b` and accepts the object as a
blob (the `blob ` header check passes).  `f` is the abstract SHA-1 hex
digest; `c`/`d` are zlib compression with its round-trip contract. -/
theorem blob_roundtrip (f c d : Bytes → Bytes) (hzlib : ∀ x, d (c x) = x) (b : Bytes) :
    catFileP d (hashObjectW f c [] b).1 (hashObjectW f c [] b).2 = .ok b :=
  catFileP_fresh_blob f c d hzlib b

theorem blob_roundtrip_witness :
    catFileP id (hashObjectW hashConstA id [] []).1 (hashObjectW hashConstA id [] []).2
      = .ok [] :=
  blob_roundtrip hashConstA id id (fun _ => rfl) []

/-- Claim C4 (confirmed): the digest returned by `write(kind, payload)` is
the (abstract, hex-rendered) hash of the header-prefixed representation
`"<kind> <len(payload)>\x00" + payload`; the digest is pure in
`(kind, payload)` (independent of the store); and storing `"hello"` as a
blob hashes exactly the bytes of `"blob 5\x00hello"`. -/
theorem digest_is_hash_of_header (f c : Bytes → Bytes) (σ σ' : Store) (kind payload : Bytes) :
    (writeKind f c σ kind payload).2
      = f (kind ++ [32] ++ natToDec payload.length ++ [0] ++ payload) ∧
    (writeKind f c σ kind payload).2 = (writeKind f c σ' kind payload).2 ∧
    (hashObjectW f c σ (strBytes "hello")).2
      = f [98, 108, 111, 98, 32, 53, 0, 104, 101, 108, 108, 111] := by
  refine ⟨?_, ?_, ?_⟩
  · rw [writeKind, writeObject_sha]
    rfl
  · rw [writeKind, writeObject_sha, writeKind, writeObject_sha]
  · have h : blobStoreBytes (strBytes "hello")
        = [98, 108, 111, 98, 32, 53, 0, 104, 101, 108, 108, 111] := by decide
    rw [hashObjectW, writeObject_sha, h]

/-- Claim C5 (confirmed): for any entry list sorted by name whose modes
contain no space, names no null, and digests are 40 lowercase hex digits
(everything `_write_tree_for_dir` produces), decoding the encoded tree body
returns exactly the original entries. -/
theorem tree_roundtrip (es : List TreeEntry) (_hsorted : List.Pairwise entryLe es)
    (hok : ∀ e ∈ es, EntryOk e) : decodeTree (encodeTreeBody es) = some es := by
  have h := lsLoop_encodeBody es hok [] [] ((encodeTreeBody es).length + 1)
    (by have := length_encodeTreeBody_ge es; omega)
  simpa [decodeTree] using h

theorem tree_roundtrip_witness :
    decodeTree (encodeTreeBody
        [⟨strBytes "100644", strBytes "a.txt", toHexList (List.replicate 20 171)⟩,
         ⟨strBytes "40000", strBytes "dir", toHexList (List.replicate 20 18)⟩])
      = some [⟨strBytes "100644", strBytes "a.txt", toHexList (List.replicate 20 171)⟩,
              ⟨strBytes "40000", strBytes "dir", toHexList (List.replicate 20 18)⟩] :=
  tree_roundtrip
    [⟨strBytes "100644", strBytes "a.txt", toHexList (List.replicate 20 171)⟩,
     ⟨strBytes "40000", strBytes "dir", toHexList (List.replicate 20 18)⟩]
    (by decide) (by decide)

/-- Claim C6 (confirmed): `commit_tree` composes the body lines in fixed
order — `tree`, then `parent` only when a (nonempty) parent digest is
supplied, then author, committer, a blank line and the message — and the
header contains a `parent` line iff a parent was supplied. -/
theorem commit_shape (t msg : Bytes) (ts : Nat) (parent : Option Bytes)
    (hp : ∀ p, parent = some p → p ≠ []) :
    commitLines t parent msg ts
      = [treeLine t]
        ++ (match parent with | some p => [parentLine p] | none => [])
        ++ [authorLine ts, committerLine ts, [], msg] ∧
    (hasParentLine (commitLines t parent msg ts) = true ↔ parent ≠ none) := by
  cases parent with
  | none =>
    rw [commitLines_none]
    refine ⟨by simp, ?_⟩
    rw [hasParentLine_none]
    simp
  | some p =>
    have hp' : p ≠ [] := hp p rfl
    rw [commitLines_some t p msg ts hp']
    refine ⟨by simp, ?_⟩
    rw [hasParentLine_some]
    simp

theorem commit_shape_witness :
    hasParentLine (commitLines (strBytes "t") (some (strBytes "ab")) (strBytes "m") 0) = true :=
  ((commit_shape (strBytes "t") (strBytes "m") 0 (some (strBytes "ab"))
    (fun p hp => by cases hp; decide)).2).mpr (by simp)

/-- Claim C7 (confirmed): the entry list `_write_tree_for_dir` builds for a
directory is sorted byte-wise by child name, contains no `.git` entry, and
its names are exactly the names of the directory's direct children other
than `.git`. -/
theorem build_tree_entries_sorted (f : Bytes → Bytes) (cs : List (Bytes × FSNode)) :
    List.Pairwise entryLe (dirEntries f cs) ∧
    (∀ e ∈ dirEntries f cs, e.name ≠ GITNAME) ∧
    ((dirEntries f cs).map TreeEntry.name).Perm
      ((cs.map Prod.fst).filter (fun nm => !(nm == GITNAME))) := by
  refine ⟨?_, ?_, ?_⟩
  · exact (List.sorted_insertionSort entryLe (childEntriesRaw f cs)).filter _
  · intro e he
    rw [dirEntries, sortFilterEntries] at he
    have := (List.mem_filter.mp he).2
    simpa using this
  · rw [dirEntries, sortFilterEntries, map_name_filter_git]
    have hperm : ((List.insertionSort entryLe (childEntriesRaw f cs)).map TreeEntry.name).Perm
        ((childEntriesRaw f cs).map TreeEntry.name) :=
      (List.perm_insertionSort entryLe (childEntriesRaw f cs)).map _
    rw [childEntriesRaw_names f cs] at hperm
    exact hperm.filter _

/-- Claim C8 (confirmed): `read` prefers the fan-out location and falls back
to the flat location; when neither exists the read fails (the
`FileNotFoundError` / `ObjectNotFound` path) and `cat-file -p` exits with
status 1, prints an error message, and writes nothing to standard output. -/
theorem read_fallback_and_not_found (d : Bytes → Bytes) (σ : Store) (sha : Bytes) :
    (pathExists σ (fanoutPath sha) = true → objectPath σ sha = some (fanoutPath sha)) ∧
    (pathExists σ (fanoutPath sha) = false → pathExists σ (flatPath sha) = true →
      objectPath σ sha = some (flatPath sha)) ∧
    (pathExists σ (fanoutPath sha) = false → pathExists σ (flatPath sha) = false →
      readObject d σ sha = none ∧
      catFileP d σ sha = .fatal (strBytes "fatal: object not found") ∧
      exitCode (catFileP d σ sha) = 1 ∧
      stdoutBytes (catFileP d σ sha) = []) := by
  refine ⟨?_, ?_, ?_⟩
  · intro h
    simp [objectPath, h]
  · intro h1 h2
    simp [objectPath, h1, h2]
  · intro h1 h2
    have hOP : objectPath σ sha = none := by simp [objectPath, h1, h2]
    have hRO : readObject d σ sha = none := by simp [readObject, hOP]
    have hC : catFileP d σ sha = .fatal (strBytes "fatal: object not found") := by
      simp [catFileP, hRO]
    exact ⟨hRO, hC, by rw [hC]; rfl, by rw [hC]; rfl⟩

theorem read_fallback_and_not_found_witness :
    exitCode (catFileP id [] (List.replicate 40 97)) = 1 ∧
    stdoutBytes (catFileP id [] (List.replicate 40 97)) = [] := by
  have h := (read_fallback_and_not_found id [] (List.replicate 40 97)).2.2 rfl rfl
  exact ⟨h.2.2.1, h.2.2.2⟩

/-- Claim C9 (refuted — a code bug): the `ls_tree` scanning loop does not
terminate on every body.  On the 21-byte body of `0x41` bytes (no space, no
null), the scan index goes `0 → 20 → 20 → …` forever: `find` returns `-1`,
`i = j + 1` resets the index to `0`, and `i += 20` returns it to `20`.  No
amount of fuel completes the scan, so the index does not strictly progress
toward the end of the body. -/
theorem ls_tree_scan_diverges :
    noDelimBody.length = 21 ∧
    (∀ a ∈ noDelimBody, a ≠ 32 ∧ a ≠ 0) ∧
    (∀ fuel acc, lsLoop noDelimBody fuel 0 acc = none) ∧
    decodeTree noDelimBody = none := by
  refine ⟨by decide, by decide, lsLoop_noDelim_none, ?_⟩
  rw [decodeTree]
  exact lsLoop_noDelim_none _ _

/-- Claim C10 (confirmed): `commit_tree` with the empty string as parent
digest produces exactly the body produced with no parent at all — the
`if parent_sha:` truthiness test rejects the empty string, so no parent
line is emitted. -/
theorem commit_empty_parent_like_none (t msg : Bytes) (ts : Nat) :
    commitLines t (some []) msg ts = commitLines t none msg ts ∧
    commitContent t (some []) msg ts = commitContent t none msg ts ∧
    commitStoreBytes t (some []) msg ts = commitStoreBytes t none msg ts ∧
    hasParentLine (commitLines t (some []) msg ts) = false := by
  have h := commitLines_some_empty t msg ts
  have h2 : commitContent t (some []) msg ts = commitContent t none msg ts := by
    simp only [commitContent, h]
  have h3 : commitStoreBytes t (some []) msg ts = commitStoreBytes t none msg ts := by
    simp only [commitStoreBytes, h2]
  refine ⟨h, h2, h3, ?_⟩
  rw [h, commitLines_none]
  exact hasParentLine_none t msg ts

end MiniGit
